import Mathlib

/-!
# Euler angles of cglm (`include/cglm-euler.h`)

A shallow embedding of the six functions of `cglm-euler.h`:

* `glm_euler_angles`, `glm_euler_anglesv` : matrix to XYZ Euler angles,
* `glm_euler`, `glm_eulerv`, `glm_euler_zyx`, `glm_euler_zxy` : angles to matrix.

The C code works on `float`.  The embedding is written once, over an arbitrary
linearly ordered field `α` and an arbitrary implementation `Libm α` of the
functions and constants the header takes from `<math.h>`; the definitions are
ordinary computable functions.  The properties are proved at `α = ℝ` with the
real functions (`realLibm`), which is the idealisation the specification uses.
Where binary32 rounding changes the branch that the code takes, the code is
also evaluated with `f32Libm`, which keeps the rounding of `sinf` at the poles
and of the constants `M_PI` and `M_PI_2`.
-/

namespace Cglm

/-! ## Data model -/

/-- The functions and constants that `cglm-euler.h` takes from `<math.h>`. -/
structure Libm (α : Type) where
  /-- The function `sinf`. -/
  sinf : α → α
  /-- The function `cosf`. -/
  cosf : α → α
  /-- The function `asinf`. -/
  asinf : α → α
  /-- The function `atan2f`, called as `atan2f(y, x)`. -/
  atan2f : α → α → α
  /-- The double precision `atan2`, which lines 52 and 95 call. -/
  atan2 : α → α → α
  /-- The function `fabsf`. -/
  fabsf : α → α
  /-- The constant `M_PI`. -/
  M_PI : α
  /-- The constant `M_PI_2`. -/
  M_PI_2 : α

/-- The C type `mat4` (`vec4[4]`): `m c r` is the C expression `m[c][r]`. -/
abbrev Mat4 (α : Type) := Fin 4 → Fin 4 → α

/-- The store `m[c][r] = x`. -/
def Mat4.set {α : Type} (m : Mat4 α) (c r : Fin 4) (x : α) : Mat4 α :=
  fun c' r' => if c' = c ∧ r' = r then x else m c' r'

/-- The float cells reached through a `vec3` argument `v`: `v i` is the C
expression `v[i]`.  A `vec3` owns the cells `0`, `1` and `2`; the cells from `3`
on are whatever follows the vector in memory. -/
abbrev Cells (α : Type) := Nat → α

/-- One store `v[i] = x` through a `vec3` argument. -/
abbrev Store (α : Type) := Nat × α

/-- Perform stores in program order. -/
def runStores {α : Type} (ss : List (Store α)) (v : Cells α) : Cells α :=
  ss.foldl (fun w s => Function.update w s.1 s.2) v

/-- The result of `glm_euler_angles`: the values left in `*pitch`, `*yaw`
and `*roll`. -/
structure Angles (α : Type) where
  pitch : α
  yaw : α
  roll : α

/-- The top-left 3x3 block of a `mat4` as a mathematical matrix.  The storage is
column-major, so the entry in row `i` and column `j` is `m[j][i]`. -/
def block3 {α : Type} (m : Mat4 α) : Matrix (Fin 3) (Fin 3) α :=
  Matrix.of fun i j => m j.castSucc i.castSucc

/-! ## The extractor -/

section Code

variable {α : Type} [LinearOrderedField α]

/-- The function `glm_euler_angles` (lines 21-61). -/
def glm_euler_angles (L : Libm α) (m : Mat4 α) : Angles α :=
  if m 2 0 < 1 then
    if m 2 0 > -1 then
      let a01 := L.asinf (m 2 0)
      let a11 := L.M_PI - a01
      let cy1 := L.cosf a01
      let cy2 := L.cosf a11
      let a00 := L.atan2f (-m 2 1 / cy1) (m 2 2 / cy1)
      let a10 := L.atan2f (-m 2 1 / cy2) (m 2 2 / cy2)
      let a02 := L.atan2f (-m 1 0 / cy1) (m 0 0 / cy1)
      let a12 := L.atan2f (-m 1 0 / cy2) (m 0 0 / cy2)
      let path : Bool :=
        decide ((L.fabsf a00 + L.fabsf a01 + L.fabsf a02) >
                (L.fabsf a10 + L.fabsf a11 + L.fabsf a12))
      if path then ⟨a10, a11, a12⟩ else ⟨a00, a01, a02⟩
    else
      ⟨-L.atan2 (m 0 1) (m 2 1), -L.M_PI_2, 0⟩
  else
    ⟨L.atan2f (m 0 1) (m 1 1), L.M_PI_2, 0⟩

/-- The quotient `a / b` of two floats, or `none` when the divisor is zero. -/
def checkedDiv (a b : α) : Option α :=
  if b = 0 then none else some (a / b)

/-- The function `glm_euler_angles` (lines 21-61) with every division of the
body checked: the result is `none` as soon as one of the eight divisions of
lines 39-43 (four by `cy1`, four by `cy2`, in program order) has a zero
divisor, and the angles otherwise. -/
def glm_euler_angles_checked (L : Libm α) (m : Mat4 α) : Option (Angles α) :=
  if m 2 0 < 1 then
    if m 2 0 > -1 then do
      let a01 := L.asinf (m 2 0)
      let a11 := L.M_PI - a01
      let cy1 := L.cosf a01
      let cy2 := L.cosf a11
      let a00 := L.atan2f (← checkedDiv (-m 2 1) cy1) (← checkedDiv (m 2 2) cy1)
      let a10 := L.atan2f (← checkedDiv (-m 2 1) cy2) (← checkedDiv (m 2 2) cy2)
      let a02 := L.atan2f (← checkedDiv (-m 1 0) cy1) (← checkedDiv (m 0 0) cy1)
      let a12 := L.atan2f (← checkedDiv (-m 1 0) cy2) (← checkedDiv (m 0 0) cy2)
      let path : Bool :=
        decide ((L.fabsf a00 + L.fabsf a01 + L.fabsf a02) >
                (L.fabsf a10 + L.fabsf a11 + L.fabsf a12))
      pure (if path then ⟨a10, a11, a12⟩ else ⟨a00, a01, a02⟩)
    else
      pure ⟨-L.atan2 (m 0 1) (m 2 1), -L.M_PI_2, 0⟩
  else
    pure ⟨L.atan2f (m 0 1) (m 1 1), L.M_PI_2, 0⟩

/-- Modelled from the spec: `glm_vec_dup(a, v)` is declared in another header
of cglm, which is not among the sources; the spec gives the vector variant the
same algorithm as the scalar one with "different output shape", so the call
copies the three components of `a` to `v[0]`, `v[1]`, `v[2]`. -/
def glm_vec_dup (a : Angles α) : List (Store α) :=
  [(0, a.pitch), (1, a.yaw), (2, a.roll)]

/-- The stores through `v` that `glm_euler_anglesv` (lines 69-104) performs, in
program order. -/
def glm_euler_anglesv_stores (L : Libm α) (m : Mat4 α) : List (Store α) :=
  if m 2 0 < 1 then
    if m 2 0 > -1 then
      let a01 := L.asinf (m 2 0)
      let a11 := L.M_PI - a01
      let cy1 := L.cosf a01
      let cy2 := L.cosf a11
      let a00 := L.atan2f (-m 2 1 / cy1) (m 2 2 / cy1)
      let a10 := L.atan2f (-m 2 1 / cy2) (m 2 2 / cy2)
      let a02 := L.atan2f (-m 1 0 / cy1) (m 0 0 / cy1)
      let a12 := L.atan2f (-m 1 0 / cy2) (m 0 0 / cy2)
      let path : Bool :=
        decide ((L.fabsf a00 + L.fabsf a01 + L.fabsf a02) >
                (L.fabsf a10 + L.fabsf a11 + L.fabsf a12))
      glm_vec_dup (if path then ⟨a10, a11, a12⟩ else ⟨a00, a01, a02⟩)
    else
      [(0, -L.atan2 (m 0 1) (m 2 1)), (1, -L.M_PI_2), (3, 0)]
  else
    [(0, L.atan2f (m 0 1) (m 1 1)), (1, L.M_PI_2), (2, 0)]

/-- The function `glm_euler_anglesv` (lines 69-104): the cells reached through `v` after
the call, from the cells before it. -/
def glm_euler_anglesv (L : Libm α) (m : Mat4 α) (v : Cells α) : Cells α :=
  runStores (glm_euler_anglesv_stores L m) v

/-! ## The composers -/

/-- The function `glm_euler` (lines 109-138): the matrix `dest` after the call. -/
def glm_euler (L : Libm α) (pitch yaw roll : α) (dest : Mat4 α) : Mat4 α :=
  let sx := L.sinf pitch
  let cx := L.cosf pitch
  let sy := L.sinf yaw
  let cy := L.cosf yaw
  let sz := L.sinf roll
  let cz := L.cosf roll
  let dest := dest.set 0 0 (cy * cz)
  let dest := dest.set 0 1 (cz * sx * sy + cx * sz)
  let dest := dest.set 0 2 (-cx * cz * sy + sx * sz)
  let dest := dest.set 1 0 (-cy * sz)
  let dest := dest.set 1 1 (cx * cz - sx * sy * sz)
  let dest := dest.set 1 2 (cz * sx + cx * sy * sz)
  let dest := dest.set 2 0 sy
  let dest := dest.set 2 1 (-cy * sx)
  let dest := dest.set 2 2 (cx * cy)
  let dest := dest.set 0 3 0
  let dest := dest.set 1 3 0
  let dest := dest.set 2 3 0
  let dest := dest.set 3 0 0
  let dest := dest.set 3 1 0
  let dest := dest.set 3 2 0
  let dest := dest.set 3 3 1
  dest

/-- The function `glm_eulerv` (lines 146-172): `angles i` is `angles[i]`. -/
def glm_eulerv (L : Libm α) (angles : Cells α) (dest : Mat4 α) : Mat4 α :=
  let sx := L.sinf (angles 0)
  let cx := L.cosf (angles 0)
  let sy := L.sinf (angles 1)
  let cy := L.cosf (angles 1)
  let sz := L.sinf (angles 2)
  let cz := L.cosf (angles 2)
  let dest := dest.set 0 0 (cy * cz)
  let dest := dest.set 0 1 (cz * sx * sy + cx * sz)
  let dest := dest.set 0 2 (-cx * cz * sy + sx * sz)
  let dest := dest.set 1 0 (-cy * sz)
  let dest := dest.set 1 1 (cx * cz - sx * sy * sz)
  let dest := dest.set 1 2 (cz * sx + cx * sy * sz)
  let dest := dest.set 2 0 sy
  let dest := dest.set 2 1 (-cy * sx)
  let dest := dest.set 2 2 (cx * cy)
  let dest := dest.set 0 3 0
  let dest := dest.set 1 3 0
  let dest := dest.set 2 3 0
  let dest := dest.set 3 0 0
  let dest := dest.set 3 1 0
  let dest := dest.set 3 2 0
  let dest := dest.set 3 3 1
  dest

/-- The function `glm_euler_zyx` (lines 177-206). -/
def glm_euler_zyx (L : Libm α) (yaw pitch roll : α) (dest : Mat4 α) : Mat4 α :=
  let sx := L.sinf pitch
  let cx := L.cosf pitch
  let sy := L.sinf yaw
  let cy := L.cosf yaw
  let sz := L.sinf roll
  let cz := L.cosf roll
  let dest := dest.set 0 0 (cy * cz)
  let dest := dest.set 0 1 (cy * sz)
  let dest := dest.set 0 2 (-sy)
  let dest := dest.set 1 0 (cz * sx * sy - cx * sz)
  let dest := dest.set 1 1 (cx * cz + sx * sy * sz)
  let dest := dest.set 1 2 (cy * sx)
  let dest := dest.set 2 0 (cx * cz * sy + sx * sz)
  let dest := dest.set 2 1 (-cz * sx + cx * sy * sz)
  let dest := dest.set 2 2 (cx * cy)
  let dest := dest.set 0 3 0
  let dest := dest.set 1 3 0
  let dest := dest.set 2 3 0
  let dest := dest.set 3 0 0
  let dest := dest.set 3 1 0
  let dest := dest.set 3 2 0
  let dest := dest.set 3 3 1
  dest

/-- The function `glm_euler_zxy` (lines 211-240). -/
def glm_euler_zxy (L : Libm α) (yaw pitch roll : α) (dest : Mat4 α) : Mat4 α :=
  let sx := L.sinf pitch
  let cx := L.cosf pitch
  let sy := L.sinf yaw
  let cy := L.cosf yaw
  let sz := L.sinf roll
  let cz := L.cosf roll
  let dest := dest.set 0 0 (cy * cz - sx * sy * sz)
  let dest := dest.set 0 1 (cz * sx * sy + cy + sz)
  let dest := dest.set 0 2 (-cx * sy)
  let dest := dest.set 1 0 (-cx * sz)
  let dest := dest.set 1 1 (cx * cz)
  let dest := dest.set 1 2 sx
  let dest := dest.set 2 0 (cz * sy + cy * sx * sz)
  let dest := dest.set 2 1 (-cy * cz * sx + sy * sz)
  let dest := dest.set 2 2 (cx * cy)
  let dest := dest.set 0 3 0
  let dest := dest.set 1 3 0
  let dest := dest.set 2 3 0
  let dest := dest.set 3 0 0
  let dest := dest.set 3 1 0
  let dest := dest.set 3 2 0
  let dest := dest.set 3 3 1
  dest

end Code

/-! ## Notions the properties are stated with -/

section SpecSide

variable {α : Type} [LinearOrderedField α]

/-- The sum of the squares of row `i` of a 3x3 matrix: the square of the
Euclidean norm of the row. -/
def rowSq (B : Matrix (Fin 3) (Fin 3) α) (i : Fin 3) : α :=
  B i 0 ^ 2 + B i 1 ^ 2 + B i 2 ^ 2

/-- The sum of the squares of column `j` of a 3x3 matrix: the square of the
Euclidean norm of the column. -/
def colSq (B : Matrix (Fin 3) (Fin 3) α) (j : Fin 3) : α :=
  B 0 j ^ 2 + B 1 j ^ 2 + B 2 j ^ 2

/-- The elementary rotation about the X axis, written from the specification
("Rx"): the rotation by the angle `t` that fixes the first coordinate. -/
def rotX (L : Libm α) (t : α) : Matrix (Fin 3) (Fin 3) α :=
  !![1, 0, 0;
     0, L.cosf t, -L.sinf t;
     0, L.sinf t, L.cosf t]

/-- The elementary rotation about the Y axis, written from the specification
("Ry"): the rotation by the angle `t` that fixes the second coordinate. -/
def rotY (L : Libm α) (t : α) : Matrix (Fin 3) (Fin 3) α :=
  !![L.cosf t, 0, L.sinf t;
     0, 1, 0;
     -L.sinf t, 0, L.cosf t]

/-- The elementary rotation about the Z axis, written from the specification
("Rz"): the rotation by the angle `t` that fixes the third coordinate. -/
def rotZ (L : Libm α) (t : α) : Matrix (Fin 3) (Fin 3) α :=
  !![L.cosf t, -L.sinf t, 0;
     L.sinf t, L.cosf t, 0;
     0, 0, 1]

/-- The XYZ composition as the specification words it: the product
`Rx(pitch) * Ry(yaw) * Rz(roll)` of the elementary rotations. -/
def specEulerXYZ (L : Libm α) (pitch yaw roll : α) : Matrix (Fin 3) (Fin 3) α :=
  rotX L pitch * rotY L yaw * rotZ L roll

/-- The ZXY composition as the specification words it: the product
`Rz(roll) * Rx(pitch) * Ry(yaw)` of the elementary rotations. -/
def specEulerZXY (L : Libm α) (yaw pitch roll : α) : Matrix (Fin 3) (Fin 3) α :=
  rotZ L roll * rotX L pitch * rotY L yaw

/-- The rotation by a quarter turn about the Y axis that `glm_euler` writes for
pitch `0`, yaw `-π/2`, roll `0`: `m[0] = [0,0,1,0]`, `m[1] = [0,1,0,0]`,
`m[2] = [-1,0,0,0]`, `m[3] = [0,0,0,1]`.  Its entry `m[2][0]` is `-1`, the
negative pole of the extractor. -/
def negPoleMat : Mat4 α := fun c r =>
  if c = 0 ∧ r = 2 then 1
  else if c = 1 ∧ r = 1 then 1
  else if c = 2 ∧ r = 0 then -1
  else if c = 3 ∧ r = 3 then 1
  else 0

/-- The 4x4 identity matrix, the matrix of the rotation by no angle. -/
def mat4Identity : Mat4 α := fun c r => if c = r then 1 else 0

/-- The rotation that `glm_euler` writes for pitch `0`, yaw `π/2`, roll `0`:
`m[0] = [0,0,-1,0]`, `m[1] = [0,1,0,0]`, `m[2] = [1,0,0,0]`,
`m[3] = [0,0,0,1]`.  Its entry `m[2][0]` is `1`, the positive pole of the
extractor. -/
def posPoleMat : Mat4 α := fun c r =>
  if c = 0 ∧ r = 2 then -1
  else if c = 1 ∧ r = 1 then 1
  else if c = 2 ∧ r = 0 then 1
  else if c = 3 ∧ r = 3 then 1
  else 0

/-- A candidate of the regular case as the specification words it: for a yaw
with cosine `c`, pitch `atan2(-m[2][1]/c, m[2][2]/c)` and roll
`atan2(-m[1][0]/c, m[0][0]/c)`. -/
def candidate (L : Libm α) (m : Mat4 α) (yaw : α) : Angles α :=
  ⟨L.atan2f (-m 2 1 / L.cosf yaw) (m 2 2 / L.cosf yaw), yaw,
    L.atan2f (-m 1 0 / L.cosf yaw) (m 0 0 / L.cosf yaw)⟩

/-- Solution A of the specification: the candidate of yaw `asin(m[2][0])`. -/
def candidateA (L : Libm α) (m : Mat4 α) : Angles α :=
  candidate L m (L.asinf (m 2 0))

/-- Solution B of the specification: the candidate of yaw
`π - asin(m[2][0])`. -/
def candidateB (L : Libm α) (m : Mat4 α) : Angles α :=
  candidate L m (L.M_PI - L.asinf (m 2 0))

/-- The sum `|pitch| + |yaw| + |roll|` that the selection compares. -/
def absSum (L : Libm α) (a : Angles α) : α :=
  L.fabsf a.pitch + L.fabsf a.yaw + L.fabsf a.roll

end SpecSide

/-! ## The real interpretation of `<math.h>` -/

/-- The two-argument arctangent over the reals: the angle in `(-π, π]` of the
point `(x, y)`, and `0` at the origin. -/
noncomputable def realAtan2 (y x : ℝ) : ℝ := Complex.arg ⟨x, y⟩

/-- The functions of `<math.h>` taken over the reals. -/
noncomputable def realLibm : Libm ℝ where
  sinf := Real.sin
  cosf := Real.cos
  asinf := Real.arcsin
  atan2f := realAtan2
  atan2 := realAtan2
  fabsf := fun x => |x|
  M_PI := Real.pi
  M_PI_2 := Real.pi / 2

section Lemmas

variable {α : Type} [LinearOrderedField α]

theorem block3_glm_euler (L : Libm α) (p y r : α) (d : Mat4 α) :
    block3 (glm_euler L p y r d) =
      !![L.cosf y * L.cosf r, -L.cosf y * L.sinf r, L.sinf y;
         L.cosf r * L.sinf p * L.sinf y + L.cosf p * L.sinf r,
           L.cosf p * L.cosf r - L.sinf p * L.sinf y * L.sinf r, -L.cosf y * L.sinf p;
         -L.cosf p * L.cosf r * L.sinf y + L.sinf p * L.sinf r,
           L.cosf r * L.sinf p + L.cosf p * L.sinf y * L.sinf r, L.cosf p * L.cosf y] := by
  ext i j
  fin_cases i <;> fin_cases j <;> rfl

theorem block3_glm_eulerv (L : Libm α) (a : Cells α) (d : Mat4 α) :
    block3 (glm_eulerv L a d) = block3 (glm_euler L (a 0) (a 1) (a 2) d) := by
  ext i j
  fin_cases i <;> fin_cases j <;> rfl

theorem block3_glm_euler_zyx (L : Libm α) (y p r : α) (d : Mat4 α) :
    block3 (glm_euler_zyx L y p r d) =
      !![L.cosf y * L.cosf r, L.cosf r * L.sinf p * L.sinf y - L.cosf p * L.sinf r,
           L.cosf p * L.cosf r * L.sinf y + L.sinf p * L.sinf r;
         L.cosf y * L.sinf r, L.cosf p * L.cosf r + L.sinf p * L.sinf y * L.sinf r,
           -L.cosf r * L.sinf p + L.cosf p * L.sinf y * L.sinf r;
         -L.sinf y, L.cosf y * L.sinf p, L.cosf p * L.cosf y] := by
  ext i j
  fin_cases i <;> fin_cases j <;> rfl

theorem block3_glm_euler_zxy (L : Libm α) (y p r : α) (d : Mat4 α) :
    block3 (glm_euler_zxy L y p r d) =
      !![L.cosf y * L.cosf r - L.sinf p * L.sinf y * L.sinf r, -L.cosf p * L.sinf r,
           L.cosf r * L.sinf y + L.cosf y * L.sinf p * L.sinf r;
         L.cosf r * L.sinf p * L.sinf y + L.cosf y + L.sinf r, L.cosf p * L.cosf r,
           -L.cosf y * L.cosf r * L.sinf p + L.sinf y * L.sinf r;
         -L.cosf p * L.sinf y, L.sinf p, L.cosf p * L.cosf y] := by
  ext i j
  fin_cases i <;> fin_cases j <;> rfl

end Lemmas

/-! ## Orthonormality of the composers -/

section Orthonormal

open Matrix

theorem rowSq_eq_one {B : Matrix (Fin 3) (Fin 3) ℝ} (h : B * Bᵀ = 1) (i : Fin 3) :
    rowSq B i = 1 := by
  have h1 := congrFun (congrFun h i) i
  simp only [Matrix.mul_apply, Fin.sum_univ_three, Matrix.transpose_apply,
    Matrix.one_apply_eq] at h1
  rw [rowSq, ← h1]; ring

theorem colSq_eq_one {B : Matrix (Fin 3) (Fin 3) ℝ} (h : Bᵀ * B = 1) (j : Fin 3) :
    colSq B j = 1 := by
  have h1 := congrFun (congrFun h j) j
  simp only [Matrix.mul_apply, Fin.sum_univ_three, Matrix.transpose_apply,
    Matrix.one_apply_eq] at h1
  rw [colSq, ← h1]; ring

theorem mem_SO3_iff {B : Matrix (Fin 3) (Fin 3) ℝ} :
    B ∈ specialOrthogonalGroup (Fin 3) ℝ ↔ B * Bᵀ = 1 ∧ Bᵀ * B = 1 ∧ B.det = 1 := by
  rw [mem_specialOrthogonalGroup_iff]
  constructor
  · rintro ⟨h, hd⟩
    exact ⟨(mem_orthogonalGroup_iff (Fin 3) ℝ).1 h, (mem_orthogonalGroup_iff' (Fin 3) ℝ).1 h, hd⟩
  · rintro ⟨h, -, hd⟩
    exact ⟨(mem_orthogonalGroup_iff (Fin 3) ℝ).2 h, hd⟩

theorem rotX_mem (t : ℝ) : rotX realLibm t ∈ specialOrthogonalGroup (Fin 3) ℝ := by
  have ht := Real.sin_sq_add_cos_sq t
  rw [mem_specialOrthogonalGroup_iff, mem_orthogonalGroup_iff]
  refine ⟨?_, ?_⟩
  · ext i j
    fin_cases i <;> fin_cases j <;>
      simp [rotX, realLibm, Matrix.mul_apply, Fin.sum_univ_three, Matrix.one_apply] <;>
      nlinarith [ht]
  · simp [rotX, realLibm, Matrix.det_fin_three]; nlinarith [ht]

theorem rotY_mem (t : ℝ) : rotY realLibm t ∈ specialOrthogonalGroup (Fin 3) ℝ := by
  have ht := Real.sin_sq_add_cos_sq t
  rw [mem_specialOrthogonalGroup_iff, mem_orthogonalGroup_iff]
  refine ⟨?_, ?_⟩
  · ext i j
    fin_cases i <;> fin_cases j <;>
      simp [rotY, realLibm, Matrix.mul_apply, Fin.sum_univ_three, Matrix.one_apply] <;>
      nlinarith [ht]
  · simp [rotY, realLibm, Matrix.det_fin_three]; nlinarith [ht]

theorem rotZ_mem (t : ℝ) : rotZ realLibm t ∈ specialOrthogonalGroup (Fin 3) ℝ := by
  have ht := Real.sin_sq_add_cos_sq t
  rw [mem_specialOrthogonalGroup_iff, mem_orthogonalGroup_iff]
  refine ⟨?_, ?_⟩
  · ext i j
    fin_cases i <;> fin_cases j <;>
      simp [rotZ, realLibm, Matrix.mul_apply, Fin.sum_univ_three, Matrix.one_apply] <;>
      nlinarith [ht]
  · simp [rotZ, realLibm, Matrix.det_fin_three]; nlinarith [ht]

/-- A matrix of the special orthogonal group has determinant 1 and rows and
columns of Euclidean norm 1. -/
theorem orthonormal_of_mem {B : Matrix (Fin 3) (Fin 3) ℝ}
    (h : B ∈ specialOrthogonalGroup (Fin 3) ℝ) :
    B.det = 1 ∧ (∀ i, Real.sqrt (rowSq B i) = 1) ∧ (∀ j, Real.sqrt (colSq B j) = 1) := by
  obtain ⟨h1, h2, h3⟩ := mem_SO3_iff.1 h
  refine ⟨h3, fun i => ?_, fun j => ?_⟩
  · rw [rowSq_eq_one h1, Real.sqrt_one]
  · rw [colSq_eq_one h2, Real.sqrt_one]

section Products

variable {α : Type} [LinearOrderedField α]

/-- The block written by `glm_euler` is the product `Rx * Ry * Rz`. -/
theorem block3_glm_euler_eq_mul (L : Libm α) (p y r : α) (d : Mat4 α) :
    block3 (glm_euler L p y r d) = rotX L p * rotY L y * rotZ L r := by
  rw [block3_glm_euler]
  ext i j
  fin_cases i <;> fin_cases j <;>
    simp [rotX, rotY, rotZ, Matrix.mul_apply, Fin.sum_univ_three, Matrix.vecHead,
      Matrix.vecTail] <;> ring

/-- The block written by `glm_euler_zyx` is the product `Rz * Ry * Rx`. -/
theorem block3_glm_euler_zyx_eq_mul (L : Libm α) (y p r : α) (d : Mat4 α) :
    block3 (glm_euler_zyx L y p r d) = rotZ L r * rotY L y * rotX L p := by
  rw [block3_glm_euler_zyx]
  ext i j
  fin_cases i <;> fin_cases j <;>
    simp [rotX, rotY, rotZ, Matrix.mul_apply, Fin.sum_univ_three, Matrix.vecHead,
      Matrix.vecTail] <;> ring

end Products

/-- C5. For all real pitch, yaw, roll (and whatever `dest` held before), the
3x3 block of the matrix written by `glm_euler`, and of the one written by
`glm_eulerv` from the vector `[pitch, yaw, roll]`, has determinant 1, and each
of its rows and each of its columns has Euclidean norm 1. -/
theorem glm_euler_orthonormal (angles : Cells ℝ) (dest : Mat4 ℝ) :
    ((block3 (glm_euler realLibm (angles 0) (angles 1) (angles 2) dest)).det = 1 ∧
      (∀ i, Real.sqrt
        (rowSq (block3 (glm_euler realLibm (angles 0) (angles 1) (angles 2) dest)) i) = 1) ∧
      (∀ j, Real.sqrt
        (colSq (block3 (glm_euler realLibm (angles 0) (angles 1) (angles 2) dest)) j) = 1)) ∧
    ((block3 (glm_eulerv realLibm angles dest)).det = 1 ∧
      (∀ i, Real.sqrt (rowSq (block3 (glm_eulerv realLibm angles dest)) i) = 1) ∧
      (∀ j, Real.sqrt (colSq (block3 (glm_eulerv realLibm angles dest)) j) = 1)) := by
  have h : block3 (glm_euler realLibm (angles 0) (angles 1) (angles 2) dest) ∈
      specialOrthogonalGroup (Fin 3) ℝ := by
    rw [block3_glm_euler_eq_mul]
    exact mul_mem (mul_mem (rotX_mem _) (rotY_mem _)) (rotZ_mem _)
  rw [block3_glm_eulerv]
  exact ⟨orthonormal_of_mem h, orthonormal_of_mem h⟩

/-- C7. For all real yaw, pitch, roll (and whatever `dest` held before), the
3x3 block of the matrix written by `glm_euler_zyx` has determinant 1, and each
of its rows and each of its columns has Euclidean norm 1. -/
theorem glm_euler_zyx_orthonormal (yaw pitch roll : ℝ) (dest : Mat4 ℝ) :
    (block3 (glm_euler_zyx realLibm yaw pitch roll dest)).det = 1 ∧
    (∀ i, Real.sqrt (rowSq (block3 (glm_euler_zyx realLibm yaw pitch roll dest)) i) = 1) ∧
    (∀ j, Real.sqrt (colSq (block3 (glm_euler_zyx realLibm yaw pitch roll dest)) j) = 1) := by
  apply orthonormal_of_mem
  rw [block3_glm_euler_zyx_eq_mul]
  exact mul_mem (mul_mem (rotZ_mem _) (rotY_mem _)) (rotX_mem _)

/-- C9. For all real pitch, yaw, roll, the 3x3 block written by `glm_euler`
equals the matrix product `Rx(pitch) * Ry(yaw) * Rz(roll)` of the elementary
axis rotations (the block read column-major, entry `(i, j)` being
`dest[j][i]`). -/
theorem glm_euler_refines_specEulerXYZ (pitch yaw roll : ℝ) (dest : Mat4 ℝ) :
    block3 (glm_euler realLibm pitch yaw roll dest) = specEulerXYZ realLibm pitch yaw roll := by
  rw [specEulerXYZ]
  exact block3_glm_euler_eq_mul realLibm pitch yaw roll dest

end Orthonormal

/-! ## The ZXY composer -/

/-- C6, at the input yaw = pitch = roll = 0: the first column `dest[0]` of the
block written by `glm_euler_zxy` is `(1, 1, 0)`, of squared norm 2, so it is
not of Euclidean norm 1 (line 225 adds `cy` where the product needs `cy * sz`). -/
theorem glm_euler_zxy_zero_not_unit (dest : Mat4 ℝ) :
    colSq (block3 (glm_euler_zxy realLibm 0 0 0 dest)) 0 = 2 ∧
    Real.sqrt (colSq (block3 (glm_euler_zxy realLibm 0 0 0 dest)) 0) ≠ 1 := by
  have h : colSq (block3 (glm_euler_zxy realLibm 0 0 0 dest)) 0 = 2 := by
    rw [block3_glm_euler_zxy]
    simp [colSq, realLibm]
    norm_num
  refine ⟨h, ?_⟩
  rw [h]
  intro h2
  have h3 : (0 : ℝ) ≤ 2 := by norm_num
  have h4 := Real.sq_sqrt h3
  rw [h2] at h4
  norm_num at h4

/-- C8, at the input yaw = pitch = roll = 0: `glm_euler_zxy` writes
`dest[0][1] = 1`, where the product `Rz(roll) * Rx(pitch) * Ry(yaw)` has the
entry `cz*sx*sy + cy*sz = 0`; the block written is not the product. -/
theorem glm_euler_zxy_zero_ne_specEulerZXY (dest : Mat4 ℝ) :
    glm_euler_zxy realLibm 0 0 0 dest 0 1 = 1 ∧
    specEulerZXY realLibm 0 0 0 1 0 = 0 ∧
    block3 (glm_euler_zxy realLibm 0 0 0 dest) ≠ specEulerZXY realLibm 0 0 0 := by
  have h1 : glm_euler_zxy realLibm 0 0 0 dest 0 1 = 1 := by
    have h := congrFun (congrFun (block3_glm_euler_zxy realLibm 0 0 0 dest) 1) 0
    simp [block3, realLibm] at h
    exact h
  have h2 : specEulerZXY realLibm 0 0 0 1 0 = 0 := by
    simp [specEulerZXY, rotX, rotY, rotZ, realLibm, Matrix.mul_apply, Fin.sum_univ_three,
      Matrix.vecHead, Matrix.vecTail]
  refine ⟨h1, h2, fun h => ?_⟩
  have h3 := congrFun (congrFun h 1) 0
  rw [h2] at h3
  have h4 : block3 (glm_euler_zxy realLibm 0 0 0 dest) 1 0 = glm_euler_zxy realLibm 0 0 0 dest 0 1 :=
    rfl
  rw [h4, h1] at h3
  exact one_ne_zero h3

/-- Apart from `dest[0][1]`, every entry of the block written by
`glm_euler_zxy` is the entry of the product `Rz(roll) * Rx(pitch) * Ry(yaw)`. -/
theorem glm_euler_zxy_other_entries (yaw pitch roll : ℝ) (dest : Mat4 ℝ) (i j : Fin 3)
    (h : ¬ (i = 1 ∧ j = 0)) :
    block3 (glm_euler_zxy realLibm yaw pitch roll dest) i j =
      specEulerZXY realLibm yaw pitch roll i j := by
  rw [block3_glm_euler_zxy, specEulerZXY]
  fin_cases i <;> fin_cases j <;>
    first
    | (exfalso; apply h; constructor <;> rfl)
    | (simp [rotX, rotY, rotZ, Matrix.mul_apply, Fin.sum_univ_three, Matrix.vecHead,
        Matrix.vecTail, realLibm] <;> ring)

/-! ## The two extractors -/

section Vector

variable {α : Type} [LinearOrderedField α]

/-- Outside the negative pole (`m[2][0] > -1`: the regular case and the
positive pole) `glm_euler_anglesv` leaves `v = [pitch, yaw, roll]` of
`glm_euler_angles`, whatever `v` held, and no other cell changes. -/
theorem glm_euler_anglesv_eq_of_gt (L : Libm α) (m : Mat4 α) (v : Cells α)
    (h : m 2 0 > -1) :
    glm_euler_anglesv L m v 0 = (glm_euler_angles L m).pitch ∧
    glm_euler_anglesv L m v 1 = (glm_euler_angles L m).yaw ∧
    glm_euler_anglesv L m v 2 = (glm_euler_angles L m).roll ∧
    ∀ i, 3 ≤ i → glm_euler_anglesv L m v i = v i := by
  have hup : ∀ (a : Angles α) (i : Nat), 3 ≤ i →
      runStores [(0, a.pitch), (1, a.yaw), (2, a.roll)] v i = v i := by
    intro a i hi
    have h0 : i ≠ 0 := by omega
    have h1 : i ≠ 1 := by omega
    have h2 : i ≠ 2 := by omega
    simp [runStores, Function.update, h0, h1, h2]
  by_cases h1 : m 2 0 < 1
  · rw [glm_euler_anglesv, glm_euler_anglesv_stores, glm_euler_angles, if_pos h1, if_pos h,
      if_pos h1, if_pos h]
    refine ⟨?_, ?_, ?_, fun i hi => hup _ i hi⟩ <;>
      simp [glm_vec_dup, runStores, Function.update]
  · rw [glm_euler_anglesv, glm_euler_anglesv_stores, glm_euler_angles, if_neg h1, if_neg h1]
    refine ⟨?_, ?_, ?_, fun i hi => hup ⟨_, _, _⟩ i hi⟩ <;>
      simp [runStores, Function.update]

end Vector

/-- C10, at the negative pole: for the matrix `negPoleMat` (entry `m[2][0] = -1`)
and a vector holding `7` in every cell, `glm_euler_angles` returns roll `0`, and
`glm_euler_anglesv` leaves `v[2] = 7` and stores the `0` in `v[3]`. -/
theorem glm_euler_anglesv_negPole_roll :
    (glm_euler_angles realLibm negPoleMat).roll = 0 ∧
    glm_euler_anglesv realLibm negPoleMat (fun _ => 7) 2 = 7 ∧
    glm_euler_anglesv realLibm negPoleMat (fun _ => 7) 3 = 0 := by
  have h : (negPoleMat : Mat4 ℝ) 2 0 = -1 := by simp [negPoleMat]
  refine ⟨?_, ?_, ?_⟩
  · simp [glm_euler_angles, h]
  · simp [glm_euler_anglesv, glm_euler_anglesv_stores, runStores, h, Function.update]
  · simp [glm_euler_anglesv, glm_euler_anglesv_stores, runStores, h, Function.update]

/-! ## The two-argument arctangent -/

section Atan2

open Real

theorem realAtan2_sin_cos {t : ℝ} (h1 : -π < t) (h2 : t ≤ π) :
    realAtan2 (sin t) (cos t) = t := by
  have h := Complex.arg_cos_add_sin_mul_I (show t ∈ Set.Ioc (-π) π from ⟨h1, h2⟩)
  have e : (⟨cos t, sin t⟩ : ℂ) = Complex.cos t + Complex.sin t * Complex.I := by
    apply Complex.ext <;> simp [Complex.cos_ofReal_re, Complex.sin_ofReal_re]
  rw [realAtan2, e, h]

theorem abs_mk_of_unit {x y : ℝ} (h : x ^ 2 + y ^ 2 = 1) : Complex.abs ⟨x, y⟩ = 1 := by
  rw [Complex.abs_apply, Complex.normSq_mk]
  have e : x * x + y * y = 1 := by rw [← h]; ring
  rw [e, Real.sqrt_one]

theorem sin_realAtan2 {x y : ℝ} (h : x ^ 2 + y ^ 2 = 1) : sin (realAtan2 y x) = y := by
  rw [realAtan2, Complex.sin_arg, abs_mk_of_unit h, div_one]

theorem cos_realAtan2 {x y : ℝ} (h : x ^ 2 + y ^ 2 = 1) : cos (realAtan2 y x) = x := by
  have hne : (⟨x, y⟩ : ℂ) ≠ 0 := by
    intro h0
    have := abs_mk_of_unit h
    rw [h0, map_zero] at this
    exact zero_ne_one this
  rw [realAtan2, Complex.cos_arg hne, abs_mk_of_unit h, div_one]

end Atan2

/-! ## Extraction from a composed matrix -/

section RoundTrip

open Real

theorem zero_mem_Ioc_pi : (0 : ℝ) ∈ Set.Ioc (-π) π :=
  ⟨by linarith [pi_pos], pi_pos.le⟩

/-- C3. For all real `p`, `r` with `p + r` in `(-π, π]`, `glm_euler_angles`
applied to the matrix built by `glm_euler(p, π/2, r)` yields yaw `π/2`, roll `0`
and pitch `p + r`. -/
theorem glm_euler_angles_posPole (p r : ℝ) (dest : Mat4 ℝ)
    (h : p + r ∈ Set.Ioc (-π) π) :
    (glm_euler_angles realLibm (glm_euler realLibm p (π / 2) r dest)).yaw = π / 2 ∧
    (glm_euler_angles realLibm (glm_euler realLibm p (π / 2) r dest)).roll = 0 ∧
    (glm_euler_angles realLibm (glm_euler realLibm p (π / 2) r dest)).pitch = p + r := by
  have e20 : glm_euler realLibm p (π / 2) r dest 2 0 = sin (π / 2) := rfl
  have e01 : glm_euler realLibm p (π / 2) r dest 0 1 =
      cos r * sin p * sin (π / 2) + cos p * sin r := rfl
  have e11 : glm_euler realLibm p (π / 2) r dest 1 1 =
      cos p * cos r - sin p * sin (π / 2) * sin r := rfl
  have hge : ¬ glm_euler realLibm p (π / 2) r dest 2 0 < 1 := by
    rw [e20, sin_pi_div_two]; exact lt_irrefl 1
  have hs : cos r * sin p * sin (π / 2) + cos p * sin r = sin (p + r) := by
    rw [sin_pi_div_two, sin_add]; ring
  have hc : cos p * cos r - sin p * sin (π / 2) * sin r = cos (p + r) := by
    rw [sin_pi_div_two, cos_add]; ring
  rw [glm_euler_angles, if_neg hge]
  refine ⟨rfl, rfl, ?_⟩
  show realAtan2 (glm_euler realLibm p (π / 2) r dest 0 1)
    (glm_euler realLibm p (π / 2) r dest 1 1) = p + r
  rw [e01, e11, hs, hc, realAtan2_sin_cos h.1 h.2]

/-- Witness of C3 at `p = r = 0`, on a zeroed `dest`. -/
theorem glm_euler_angles_posPole_witness :
    (0 : ℝ) + 0 ∈ Set.Ioc (-π) π ∧
    (glm_euler_angles realLibm (glm_euler realLibm 0 (π / 2) 0 (fun _ _ => 0))).yaw = π / 2 ∧
    (glm_euler_angles realLibm (glm_euler realLibm 0 (π / 2) 0 (fun _ _ => 0))).roll = 0 ∧
    (glm_euler_angles realLibm (glm_euler realLibm 0 (π / 2) 0 (fun _ _ => 0))).pitch = 0 + 0 :=
  ⟨by rw [add_zero]; exact zero_mem_Ioc_pi,
    glm_euler_angles_posPole 0 0 (fun _ _ => 0) (by rw [add_zero]; exact zero_mem_Ioc_pi)⟩

end RoundTrip

/-! ## The regular case on an arbitrary rotation matrix -/

section Regular

open Real Matrix

theorem adjugate_eq_transpose {B : Matrix (Fin 3) (Fin 3) ℝ} (h2 : Bᵀ * B = 1)
    (h3 : B.det = 1) : B.adjugate = Bᵀ := by
  have h := Matrix.mul_adjugate B
  rw [h3, one_smul] at h
  calc B.adjugate = (Bᵀ * B) * B.adjugate := by rw [h2, one_mul]
    _ = Bᵀ * (B * B.adjugate) := Matrix.mul_assoc _ _ _
    _ = Bᵀ := by rw [h, mul_one]

/-- In a rotation matrix the four entries outside row 0 and column 2 are
determined by row 0 and column 2, up to the factor `1 - (B 0 2)^2`. -/
theorem rotation_entries {B : Matrix (Fin 3) (Fin 3) ℝ} (h2 : Bᵀ * B = 1)
    (h3 : B.det = 1) :
    B 0 0 ^ 2 + B 0 1 ^ 2 = 1 - B 0 2 ^ 2 ∧
    B 1 2 ^ 2 + B 2 2 ^ 2 = 1 - B 0 2 ^ 2 ∧
    -(B 0 0 * B 0 2 * B 1 2) - B 0 1 * B 2 2 = B 1 0 * (1 - B 0 2 ^ 2) ∧
    B 0 0 * B 2 2 - B 0 1 * B 0 2 * B 1 2 = B 1 1 * (1 - B 0 2 ^ 2) ∧
    -(B 0 0 * B 0 2 * B 2 2) + B 0 1 * B 1 2 = B 2 0 * (1 - B 0 2 ^ 2) ∧
    -(B 0 0 * B 1 2) - B 0 1 * B 0 2 * B 2 2 = B 2 1 * (1 - B 0 2 ^ 2) := by
  have h1 : B * Bᵀ = 1 := Matrix.mul_eq_one_comm.1 h2
  have ha := adjugate_eq_transpose h2 h3
  rw [Matrix.adjugate_fin_three] at ha
  have r00 := congrFun (congrFun h1 0) 0
  have c22 := congrFun (congrFun h2 2) 2
  have c02 := congrFun (congrFun h2 0) 2
  have c12 := congrFun (congrFun h2 1) 2
  have a10 := congrFun (congrFun ha 1) 0
  have a00 := congrFun (congrFun ha 0) 0
  simp [Matrix.mul_apply, Fin.sum_univ_three] at r00 c22 c02 c12
  simp at a10 a00
  refine ⟨?_, ?_, ?_, ?_, ?_, ?_⟩
  · linear_combination r00
  · linear_combination c22
  · linear_combination B 1 0 * c22 - B 1 2 * c02 + B 2 2 * a10
  · linear_combination B 1 1 * c22 - B 1 2 * c12 - B 2 2 * a00
  · linear_combination B 2 0 * c22 - B 2 2 * c02 - B 1 2 * a10
  · linear_combination B 2 1 * c22 - B 2 2 * c12 + B 1 2 * a00

/-- If `Y` has sine `B 0 2` and a non-zero cosine `cy`, and `P`, `R` have the
sines and cosines that the regular branch of the extractor aims at, then
`glm_euler` rebuilds the rotation matrix `B`. -/
theorem block3_glm_euler_of_rotation {B : Matrix (Fin 3) (Fin 3) ℝ} (h2 : Bᵀ * B = 1)
    (h3 : B.det = 1) {cy P Y R : ℝ} (hcy : cy ≠ 0) (hcy2 : cy ^ 2 = 1 - B 0 2 ^ 2)
    (hsY : sin Y = B 0 2) (hcY : cos Y = cy)
    (hsP : sin P = -B 1 2 / cy) (hcP : cos P = B 2 2 / cy)
    (hsR : sin R = -B 0 1 / cy) (hcR : cos R = B 0 0 / cy) (d : Mat4 ℝ) :
    block3 (glm_euler realLibm P Y R d) = B := by
  obtain ⟨-, -, e10, e11, e20, e21⟩ := rotation_entries h2 h3
  have hD : cy ^ 2 ≠ 0 := pow_ne_zero 2 hcy
  rw [← hcy2] at e10 e11 e20 e21
  rw [block3_glm_euler]
  ext i j
  fin_cases i <;> fin_cases j <;>
    simp only [realLibm, hsY, hcY, hsP, hcP, hsR, hcR, Matrix.of_apply, Matrix.cons_val',
      Matrix.cons_val_zero, Matrix.cons_val_one, Matrix.head_cons, Matrix.cons_val_two,
      Matrix.tail_cons, Matrix.empty_val', Matrix.cons_val_fin_one, Fin.zero_eta, Fin.mk_one,
      Fin.reduceFinMk] <;> (try field_simp)
  · linear_combination cy ^ 2 * e10
  · linear_combination e11
  · linear_combination cy ^ 2 * e20
  · linear_combination cy ^ 2 * e21

theorem block3_mat4Identity : block3 (mat4Identity : Mat4 ℝ) = 1 := by
  ext i j
  fin_cases i <;> fin_cases j <;> simp [block3, mat4Identity]

/-- Both candidates of the regular branch rebuild the matrix: the angles are
read off with a cosine `cy` of the yaw that is not zero. -/
theorem regular_candidate (M dest : Mat4 ℝ)
    (horth : (block3 M)ᵀ * block3 M = 1) (hdet : (block3 M).det = 1)
    {cy Y : ℝ} (hne : cy ≠ 0) (h2 : cy ^ 2 = 1 - M 2 0 ^ 2)
    (hs : sin Y = M 2 0) (hcos : cos Y = cy) :
    block3 (glm_euler realLibm (realAtan2 (-M 2 1 / cy) (M 2 2 / cy)) Y
      (realAtan2 (-M 1 0 / cy) (M 0 0 / cy)) dest) = block3 M := by
  obtain ⟨hr, hc, -⟩ := rotation_entries horth hdet
  have hr' : M 0 0 ^ 2 + M 1 0 ^ 2 = 1 - M 2 0 ^ 2 := hr
  have hc' : M 2 1 ^ 2 + M 2 2 ^ 2 = 1 - M 2 0 ^ 2 := hc
  have u1 : (M 2 2 / cy) ^ 2 + (-M 2 1 / cy) ^ 2 = 1 := by
    field_simp
    linear_combination hc' - h2
  have u2 : (M 0 0 / cy) ^ 2 + (-M 1 0 / cy) ^ 2 = 1 := by
    field_simp
    linear_combination hr' - h2
  exact block3_glm_euler_of_rotation horth hdet hne h2 hs hcos (sin_realAtan2 u1)
    (cos_realAtan2 u1) (sin_realAtan2 u2) (cos_realAtan2 u2) dest

/-- C1. For every 4x4 matrix `M` whose top-left 3x3 block is a proper rotation
(orthonormal, determinant 1) with `-1 < M[2][0] < 1`, the angles
`(p, y, r) = glm_euler_angles(M)` are such that the 3x3 block of
`glm_euler(p, y, r)` equals the 3x3 block of `M`. -/
theorem glm_euler_angles_regular_inverse (M dest : Mat4 ℝ)
    (horth : (block3 M)ᵀ * block3 M = 1) (hdet : (block3 M).det = 1)
    (hlo : -1 < M 2 0) (hhi : M 2 0 < 1) :
    block3 (glm_euler realLibm (glm_euler_angles realLibm M).pitch
      (glm_euler_angles realLibm M).yaw (glm_euler_angles realLibm M).roll dest) =
      block3 M := by
  have hD : 0 < 1 - M 2 0 ^ 2 := by nlinarith
  have hcy1 : cos (arcsin (M 2 0)) ^ 2 = 1 - M 2 0 ^ 2 := by
    rw [cos_arcsin, sq_sqrt hD.le]
  have hpos : 0 < cos (arcsin (M 2 0)) := by
    rw [cos_arcsin]; exact sqrt_pos.2 hD
  have hsin : sin (arcsin (M 2 0)) = M 2 0 := sin_arcsin hlo.le hhi.le
  have hcy2 : cos (π - arcsin (M 2 0)) ^ 2 = 1 - M 2 0 ^ 2 := by
    rw [cos_pi_sub, neg_sq, hcy1]
  have hneg : cos (π - arcsin (M 2 0)) ≠ 0 := by
    rw [cos_pi_sub]; exact neg_ne_zero.2 hpos.ne'
  have hsin2 : sin (π - arcsin (M 2 0)) = M 2 0 := by
    rw [sin_pi_sub, hsin]
  have hA := regular_candidate M dest horth hdet hpos.ne' hcy1 hsin rfl
  have hB := regular_candidate M dest horth hdet hneg hcy2 hsin2 rfl
  rw [glm_euler_angles, if_pos hhi, if_pos hlo]
  simp only []
  split_ifs
  · exact hB
  · exact hA

/-- Witness of C1 at the identity matrix, on a zeroed `dest`. -/
theorem glm_euler_angles_regular_inverse_witness :
    ((block3 (mat4Identity : Mat4 ℝ))ᵀ * block3 (mat4Identity : Mat4 ℝ) = 1 ∧
      (block3 (mat4Identity : Mat4 ℝ)).det = 1 ∧
      (-1 : ℝ) < (mat4Identity : Mat4 ℝ) 2 0 ∧ (mat4Identity : Mat4 ℝ) 2 0 < 1) ∧
    block3 (glm_euler realLibm (glm_euler_angles realLibm mat4Identity).pitch
      (glm_euler_angles realLibm mat4Identity).yaw
      (glm_euler_angles realLibm mat4Identity).roll (fun _ _ => 0)) =
      block3 (mat4Identity : Mat4 ℝ) :=
  have h1 : (block3 (mat4Identity : Mat4 ℝ))ᵀ * block3 (mat4Identity : Mat4 ℝ) = 1 := by
    rw [block3_mat4Identity, Matrix.transpose_one, mul_one]
  have h2 : (block3 (mat4Identity : Mat4 ℝ)).det = 1 := by
    rw [block3_mat4Identity, Matrix.det_one]
  have h3 : (-1 : ℝ) < (mat4Identity : Mat4 ℝ) 2 0 := by
    simp [mat4Identity]
  have h4 : (mat4Identity : Mat4 ℝ) 2 0 < 1 := by
    simp [mat4Identity]
  ⟨⟨h1, h2, h3, h4⟩, glm_euler_angles_regular_inverse mat4Identity (fun _ _ => 0) h1 h2 h3 h4⟩

end Regular



/-! ## The negative pole -/

section NegPole

open Real

theorem realAtan2_zero_of_neg {y : ℝ} (hy : y < 0) : realAtan2 y 0 = -(π / 2) := by
  rw [realAtan2, Complex.arg_eq_neg_pi_div_two_iff]
  exact ⟨rfl, hy⟩

theorem sqrt_two_div_two_ne_one : √2 / 2 ≠ 1 := by
  intro h
  have h2 : √2 = 2 := by linarith
  have h3 := Real.sq_sqrt (show (0 : ℝ) ≤ 2 by norm_num)
  rw [h2] at h3
  norm_num at h3

/-- C4, at the input `p = π/4`, `r = 0`: on `M = glm_euler(π/4, -π/2, 0)` the
extractor reads `m[0][1] = -√2/2` and `m[2][1] = 0`, returns
`(π/2, -π/2, 0)`, and `glm_euler` of these angles writes `dest[0][1] = -1`,
not `-√2/2`: the rebuilt block is not the block of `M`. -/
theorem glm_euler_negPole_not_inverse (dest dest2 : Mat4 ℝ) :
    glm_euler_angles realLibm (glm_euler realLibm (π / 4) (-(π / 2)) 0 dest) =
      ⟨π / 2, -(π / 2), 0⟩ ∧
    glm_euler realLibm (π / 4) (-(π / 2)) 0 dest 0 1 = -(√2 / 2) ∧
    glm_euler realLibm (π / 2) (-(π / 2)) 0 dest2 0 1 = -1 ∧
    block3 (glm_euler realLibm
        (glm_euler_angles realLibm (glm_euler realLibm (π / 4) (-(π / 2)) 0 dest)).pitch
        (glm_euler_angles realLibm (glm_euler realLibm (π / 4) (-(π / 2)) 0 dest)).yaw
        (glm_euler_angles realLibm (glm_euler realLibm (π / 4) (-(π / 2)) 0 dest)).roll dest2) ≠
      block3 (glm_euler realLibm (π / 4) (-(π / 2)) 0 dest) := by
  have e20 : glm_euler realLibm (π / 4) (-(π / 2)) 0 dest 2 0 = -1 := by
    show sin (-(π / 2)) = -1
    rw [sin_neg, sin_pi_div_two]
  have e01 : glm_euler realLibm (π / 4) (-(π / 2)) 0 dest 0 1 = -(√2 / 2) := by
    show cos 0 * sin (π / 4) * sin (-(π / 2)) + cos (π / 4) * sin 0 = -(√2 / 2)
    rw [sin_neg, sin_pi_div_two, sin_zero, cos_zero, sin_pi_div_four]; ring
  have e21 : glm_euler realLibm (π / 4) (-(π / 2)) 0 dest 2 1 = 0 := by
    show -cos (-(π / 2)) * sin (π / 4) = 0
    rw [cos_neg, cos_pi_div_two]; ring
  have f01 : glm_euler realLibm (π / 2) (-(π / 2)) 0 dest2 0 1 = -1 := by
    show cos 0 * sin (π / 2) * sin (-(π / 2)) + cos (π / 2) * sin 0 = -1
    rw [sin_neg, sin_pi_div_two, sin_zero, cos_zero]; ring
  have hlt : glm_euler realLibm (π / 4) (-(π / 2)) 0 dest 2 0 < 1 := by
    rw [e20]; norm_num
  have hgt : ¬ glm_euler realLibm (π / 4) (-(π / 2)) 0 dest 2 0 > -1 := by
    rw [e20]; exact lt_irrefl _
  have hneg : -(√2 / 2) < 0 := by
    have := Real.sqrt_pos.2 (show (0 : ℝ) < 2 by norm_num)
    linarith
  have hA : glm_euler_angles realLibm (glm_euler realLibm (π / 4) (-(π / 2)) 0 dest) =
      ⟨π / 2, -(π / 2), 0⟩ := by
    rw [glm_euler_angles, if_pos hlt, if_neg hgt, e01, e21]
    show (⟨-realAtan2 (-(√2 / 2)) 0, -(π / 2), 0⟩ : Angles ℝ) = ⟨π / 2, -(π / 2), 0⟩
    rw [realAtan2_zero_of_neg hneg, neg_neg]
  refine ⟨hA, e01, f01, ?_⟩
  rw [hA]
  intro h
  have h1 := congrFun (congrFun h 1) 0
  have h2 : glm_euler realLibm (π / 2) (-(π / 2)) 0 dest2 0 1 =
      glm_euler realLibm (π / 4) (-(π / 2)) 0 dest 0 1 := h1
  rw [f01, e01, neg_inj] at h2
  exact sqrt_two_div_two_ne_one h2.symm

end NegPole

/-! ## The affine terms and the concrete cases -/

section Affine

variable {α : Type} [LinearOrderedField α]

/-- C11. For all angle inputs and any prior content of `dest`, each of
`glm_euler`, `glm_eulerv`, `glm_euler_zyx` and `glm_euler_zxy` leaves
`dest[0][3] = dest[1][3] = dest[2][3] = 0`,
`dest[3][0] = dest[3][1] = dest[3][2] = 0` and `dest[3][3] = 1`, and writes all
16 entries: the matrix after the call is the same whatever `dest` held. -/
theorem composers_affine_terms (L : Libm α) (a b c : α) (angles : Cells α)
    (dest dest2 : Mat4 α) :
    (glm_euler L a b c dest 0 3 = 0 ∧ glm_euler L a b c dest 1 3 = 0 ∧
      glm_euler L a b c dest 2 3 = 0 ∧ glm_euler L a b c dest 3 0 = 0 ∧
      glm_euler L a b c dest 3 1 = 0 ∧ glm_euler L a b c dest 3 2 = 0 ∧
      glm_euler L a b c dest 3 3 = 1 ∧
      glm_euler L a b c dest = glm_euler L a b c dest2) ∧
    (glm_eulerv L angles dest 0 3 = 0 ∧ glm_eulerv L angles dest 1 3 = 0 ∧
      glm_eulerv L angles dest 2 3 = 0 ∧ glm_eulerv L angles dest 3 0 = 0 ∧
      glm_eulerv L angles dest 3 1 = 0 ∧ glm_eulerv L angles dest 3 2 = 0 ∧
      glm_eulerv L angles dest 3 3 = 1 ∧
      glm_eulerv L angles dest = glm_eulerv L angles dest2) ∧
    (glm_euler_zyx L a b c dest 0 3 = 0 ∧ glm_euler_zyx L a b c dest 1 3 = 0 ∧
      glm_euler_zyx L a b c dest 2 3 = 0 ∧ glm_euler_zyx L a b c dest 3 0 = 0 ∧
      glm_euler_zyx L a b c dest 3 1 = 0 ∧ glm_euler_zyx L a b c dest 3 2 = 0 ∧
      glm_euler_zyx L a b c dest 3 3 = 1 ∧
      glm_euler_zyx L a b c dest = glm_euler_zyx L a b c dest2) ∧
    (glm_euler_zxy L a b c dest 0 3 = 0 ∧ glm_euler_zxy L a b c dest 1 3 = 0 ∧
      glm_euler_zxy L a b c dest 2 3 = 0 ∧ glm_euler_zxy L a b c dest 3 0 = 0 ∧
      glm_euler_zxy L a b c dest 3 1 = 0 ∧ glm_euler_zxy L a b c dest 3 2 = 0 ∧
      glm_euler_zxy L a b c dest 3 3 = 1 ∧
      glm_euler_zxy L a b c dest = glm_euler_zxy L a b c dest2) := by
  refine ⟨⟨?_, ?_, ?_, ?_, ?_, ?_, ?_, ?_⟩, ⟨?_, ?_, ?_, ?_, ?_, ?_, ?_, ?_⟩,
    ⟨?_, ?_, ?_, ?_, ?_, ?_, ?_, ?_⟩, ⟨?_, ?_, ?_, ?_, ?_, ?_, ?_, ?_⟩⟩ <;>
  first
  | (simp [glm_euler, glm_eulerv, glm_euler_zyx, glm_euler_zxy, Mat4.set]; done)
  | (funext i j
     fin_cases i <;> fin_cases j <;>
       simp [glm_euler, glm_eulerv, glm_euler_zyx, glm_euler_zxy, Mat4.set])

/-- C15. For every `angles = [x, y, z]` and every prior `dest`,
`glm_eulerv(angles, dest)` writes exactly the matrix that
`glm_euler(x, y, z, dest)` writes. -/
theorem glm_eulerv_eq_glm_euler (L : Libm α) (angles : Cells α) (dest : Mat4 α) :
    glm_eulerv L angles dest = glm_euler L (angles 0) (angles 1) (angles 2) dest :=
  rfl

/-- C12. For any two matrices that agree on the seven entries `m[2][0]`,
`m[2][1]`, `m[2][2]`, `m[1][0]`, `m[0][0]`, `m[0][1]`, `m[1][1]`,
`glm_euler_angles` returns the same pitch, yaw and roll. -/
theorem glm_euler_angles_reads_seven (L : Libm α) (m m2 : Mat4 α)
    (h20 : m 2 0 = m2 2 0) (h21 : m 2 1 = m2 2 1) (h22 : m 2 2 = m2 2 2)
    (h10 : m 1 0 = m2 1 0) (h00 : m 0 0 = m2 0 0) (h01 : m 0 1 = m2 0 1)
    (h11 : m 1 1 = m2 1 1) :
    glm_euler_angles L m = glm_euler_angles L m2 := by
  simp only [glm_euler_angles, h20, h21, h22, h10, h00, h01, h11]

end Affine

/-- Witness of C12: the identity matrix and the identity matrix with
`m[0][2]`, `m[1][2]`, `m[3][0]` and `m[3][3]` overwritten. -/
theorem glm_euler_angles_reads_seven_witness :
    glm_euler_angles realLibm mat4Identity =
      glm_euler_angles realLibm
        ((((mat4Identity.set 0 2 5).set 1 2 6).set 3 0 7).set 3 3 9) ∧
    (mat4Identity : Mat4 ℝ) 0 2 ≠ ((((mat4Identity.set 0 2 5).set 1 2 6).set 3 0 7).set 3 3 9) 0 2 :=
  ⟨glm_euler_angles_reads_seven realLibm mat4Identity
      ((((mat4Identity.set 0 2 5).set 1 2 6).set 3 0 7).set 3 3 9)
      rfl rfl rfl rfl rfl rfl rfl,
    by simp [mat4Identity, Mat4.set]⟩

section Concrete

open Real

/-- C13. `glm_euler(π/2, 0, 0)` writes `dest[0] = [1,0,0,0]`,
`dest[1] = [0,0,1,0]`, `dest[2] = [0,-1,0,0]`, `dest[3] = [0,0,0,1]`: the
quarter turn about X on the 3x3 block, with the affine row and column. -/
theorem glm_euler_quarter_turn_x (dest : Mat4 ℝ) :
    glm_euler realLibm (π / 2) 0 0 dest =
      ![![1, 0, 0, 0], ![0, 0, 1, 0], ![0, -1, 0, 0], ![0, 0, 0, 1]] := by
  funext i j
  fin_cases i <;> fin_cases j <;>
    simp [glm_euler, Mat4.set, realLibm, Matrix.vecHead, Matrix.vecTail]

/-- C14. `glm_euler(0, 0, 0)` writes the 4x4 identity matrix. -/
theorem glm_euler_zero_identity (dest : Mat4 ℝ) :
    glm_euler realLibm 0 0 0 dest = mat4Identity ∧
    glm_euler realLibm 0 0 0 dest =
      ![![1, 0, 0, 0], ![0, 1, 0, 0], ![0, 0, 1, 0], ![0, 0, 0, 1]] := by
  constructor <;>
  · funext i j
    fin_cases i <;> fin_cases j <;>
      simp [glm_euler, Mat4.set, realLibm, mat4Identity, Matrix.vecHead, Matrix.vecTail]

end Concrete

/-! ## The selection between the two candidates -/

section Selection

variable {α : Type} [LinearOrderedField α]

/-- In the regular case the extractor returns candidate B when the sum of A is
the larger one, and candidate A otherwise. -/
theorem glm_euler_angles_regular (L : Libm α) (m : Mat4 α)
    (hlo : -1 < m 2 0) (hhi : m 2 0 < 1) :
    glm_euler_angles L m =
      if absSum L (candidateA L m) > absSum L (candidateB L m) then candidateB L m
      else candidateA L m := by
  rw [glm_euler_angles, if_pos hhi, if_pos hlo]
  simp only [candidateA, candidateB, candidate, absSum, decide_eq_true_eq]

/-- C16. For every matrix with `-1 < m[2][0] < 1`, with A and B the two
candidates of the specification, `glm_euler_angles` returns the candidate with
the smaller `|pitch| + |yaw| + |roll|`: it returns B when `sum(A) > sum(B)` and
A when `sum(A) <= sum(B)`, so equal sums resolve to A, and the sum of the
result is the minimum of the two sums. -/
theorem glm_euler_angles_selects (L : Libm α) (m : Mat4 α)
    (hlo : -1 < m 2 0) (hhi : m 2 0 < 1) :
    (absSum L (candidateA L m) > absSum L (candidateB L m) →
      glm_euler_angles L m = candidateB L m) ∧
    (absSum L (candidateA L m) ≤ absSum L (candidateB L m) →
      glm_euler_angles L m = candidateA L m) ∧
    absSum L (glm_euler_angles L m) =
      min (absSum L (candidateA L m)) (absSum L (candidateB L m)) := by
  rw [glm_euler_angles_regular L m hlo hhi]
  refine ⟨fun h => if_pos h, fun h => if_neg (not_lt.2 h), ?_⟩
  split_ifs with h
  · exact (min_eq_right h.le).symm
  · exact (min_eq_left (not_lt.1 h)).symm

end Selection

theorem mat4Identity_two_zero : (mat4Identity : Mat4 ℝ) 2 0 = 0 := by
  simp [mat4Identity]

/-- Witness of C16 at the identity matrix, over the reals. -/
theorem glm_euler_angles_selects_witness :
    ((-1 : ℝ) < (mat4Identity : Mat4 ℝ) 2 0 ∧ (mat4Identity : Mat4 ℝ) 2 0 < 1) ∧
    ((absSum realLibm (candidateA realLibm mat4Identity) >
        absSum realLibm (candidateB realLibm mat4Identity) →
      glm_euler_angles realLibm mat4Identity = candidateB realLibm mat4Identity) ∧
    (absSum realLibm (candidateA realLibm mat4Identity) ≤
        absSum realLibm (candidateB realLibm mat4Identity) →
      glm_euler_angles realLibm mat4Identity = candidateA realLibm mat4Identity) ∧
    absSum realLibm (glm_euler_angles realLibm mat4Identity) =
      min (absSum realLibm (candidateA realLibm mat4Identity))
        (absSum realLibm (candidateB realLibm mat4Identity))) :=
  have h1 : (-1 : ℝ) < (mat4Identity : Mat4 ℝ) 2 0 := by
    rw [mat4Identity_two_zero]; norm_num
  have h2 : (mat4Identity : Mat4 ℝ) 2 0 < 1 := by
    rw [mat4Identity_two_zero]; norm_num
  ⟨⟨h1, h2⟩, glm_euler_angles_selects realLibm mat4Identity h1 h2⟩

section Divisors

open Real

section Checked

variable {α : Type} [LinearOrderedField α]

theorem checkedDiv_of_ne (a : α) {b : α} (h : b ≠ 0) : checkedDiv a b = some (a / b) :=
  if_neg h

/-- When no divisor is zero the checked function returns what
`glm_euler_angles` returns. -/
theorem glm_euler_angles_checked_of_ne (L : Libm α) (m : Mat4 α)
    (h1 : L.cosf (L.asinf (m 2 0)) ≠ 0)
    (h2 : L.cosf (L.M_PI - L.asinf (m 2 0)) ≠ 0) :
    glm_euler_angles_checked L m = some (glm_euler_angles L m) := by
  unfold glm_euler_angles_checked glm_euler_angles
  split_ifs
  · simp only [checkedDiv_of_ne _ h1, checkedDiv_of_ne _ h2, Option.pure_def,
      Option.bind_eq_bind, Option.some_bind]
  · rfl
  · rfl

/-- In the regular branch a zero `cy1` makes the checked function fail: the
first division of line 39 is by zero. -/
theorem glm_euler_angles_checked_of_zero (L : Libm α) (m : Mat4 α)
    (hlo : -1 < m 2 0) (hhi : m 2 0 < 1) (h1 : L.cosf (L.asinf (m 2 0)) = 0) :
    glm_euler_angles_checked L m = none := by
  rw [glm_euler_angles_checked, if_pos hhi, if_pos hlo]
  simp [checkedDiv, h1]

end Checked

/-- C17. For every matrix with `-1 < s = m[2][0] < 1`, over the reals, the
divisor `cy1 = cos(asin(s))` of `glm_euler_angles` is strictly positive and the
divisor `cy2 = cos(π - asin(s))` is strictly negative, so none of the divisions
of the regular branch is by zero: the function with its divisions checked does
not fail and returns the angles of `glm_euler_angles`. -/
theorem regular_divisors_ne_zero (m : Mat4 ℝ) (hlo : -1 < m 2 0) (hhi : m 2 0 < 1) :
    0 < realLibm.cosf (realLibm.asinf (m 2 0)) ∧
    realLibm.cosf (realLibm.M_PI - realLibm.asinf (m 2 0)) < 0 ∧
    glm_euler_angles_checked realLibm m = some (glm_euler_angles realLibm m) := by
  have hD : 0 < 1 - m 2 0 ^ 2 := by nlinarith
  have hpos : 0 < cos (arcsin (m 2 0)) := by
    rw [cos_arcsin]; exact sqrt_pos.2 hD
  have hneg : cos (π - arcsin (m 2 0)) < 0 := by
    rw [cos_pi_sub]; exact neg_neg_of_pos hpos
  exact ⟨hpos, hneg, glm_euler_angles_checked_of_ne realLibm m hpos.ne' hneg.ne⟩

/-- Witness of C17 at the identity matrix (`s = 0`). -/
theorem regular_divisors_ne_zero_witness :
    ((-1 : ℝ) < (mat4Identity : Mat4 ℝ) 2 0 ∧ (mat4Identity : Mat4 ℝ) 2 0 < 1) ∧
    (0 < realLibm.cosf (realLibm.asinf ((mat4Identity : Mat4 ℝ) 2 0)) ∧
    realLibm.cosf (realLibm.M_PI - realLibm.asinf ((mat4Identity : Mat4 ℝ) 2 0)) < 0 ∧
    glm_euler_angles_checked realLibm mat4Identity =
      some (glm_euler_angles realLibm mat4Identity)) :=
  have h1 : (-1 : ℝ) < (mat4Identity : Mat4 ℝ) 2 0 := by
    rw [mat4Identity_two_zero]; norm_num
  have h2 : (mat4Identity : Mat4 ℝ) 2 0 < 1 := by
    rw [mat4Identity_two_zero]; norm_num
  ⟨⟨h1, h2⟩, regular_divisors_ne_zero mat4Identity h1 h2⟩

end Divisors

/-! ## The pole branches -/

section Poles

open Real

/-- C18, at the negative pole: on the matrix `negPoleMat` (entry
`m[2][0] = -1`) the stores of `glm_euler_anglesv` go to the indices 0, 1 and 3:
the roll `0` is stored in `v[3]`, outside the three cells of the vector, and
nothing is stored in `v[2]`. -/
theorem glm_euler_anglesv_stores_negPole :
    (glm_euler_anglesv_stores realLibm negPoleMat).map Prod.fst = [0, 1, 3] ∧
    (3, (0 : ℝ)) ∈ glm_euler_anglesv_stores realLibm negPoleMat ∧
    ∀ x, (2, x) ∉ glm_euler_anglesv_stores realLibm negPoleMat := by
  have h : (negPoleMat : Mat4 ℝ) 2 0 = -1 := by simp [negPoleMat]
  have hs : glm_euler_anglesv_stores realLibm negPoleMat =
      [(0, -realLibm.atan2 (negPoleMat 0 1) (negPoleMat 2 1)), (1, -realLibm.M_PI_2),
        (3, 0)] := by
    rw [glm_euler_anglesv_stores, if_pos (by rw [h]; norm_num),
      if_neg (by rw [h]; exact lt_irrefl _)]
  rw [hs]
  refine ⟨rfl, by simp, fun x => by simp⟩

/-- C19. For every matrix with `m[2][0] >= 1`, `glm_euler_angles` returns
`(atan2(m[0][1], m[1][1]), π/2, 0)`; for every matrix with `m[2][0] <= -1` it
returns `(-atan2(m[0][1], m[2][1]), -π/2, 0)`. -/
theorem glm_euler_angles_poles (m mneg : Mat4 ℝ) (h : 1 ≤ m 2 0) (hneg : mneg 2 0 ≤ -1) :
    glm_euler_angles realLibm m = ⟨realAtan2 (m 0 1) (m 1 1), π / 2, 0⟩ ∧
    glm_euler_angles realLibm mneg =
      ⟨-realAtan2 (mneg 0 1) (mneg 2 1), -(π / 2), 0⟩ := by
  constructor
  · rw [glm_euler_angles, if_neg (not_lt.2 h)]
    rfl
  · have h1 : mneg 2 0 < 1 := by linarith
    rw [glm_euler_angles, if_pos h1, if_neg (not_lt.2 hneg)]
    rfl

/-- Witness of C19 at the matrices `posPoleMat` and `negPoleMat`. -/
theorem glm_euler_angles_poles_witness :
    ((1 : ℝ) ≤ (posPoleMat : Mat4 ℝ) 2 0 ∧ (negPoleMat : Mat4 ℝ) 2 0 ≤ -1) ∧
    (glm_euler_angles realLibm posPoleMat =
      ⟨realAtan2 ((posPoleMat : Mat4 ℝ) 0 1) ((posPoleMat : Mat4 ℝ) 1 1), π / 2, 0⟩ ∧
    glm_euler_angles realLibm negPoleMat =
      ⟨-realAtan2 ((negPoleMat : Mat4 ℝ) 0 1) ((negPoleMat : Mat4 ℝ) 2 1), -(π / 2), 0⟩) :=
  have h1 : (1 : ℝ) ≤ (posPoleMat : Mat4 ℝ) 2 0 := by simp [posPoleMat]
  have h2 : (negPoleMat : Mat4 ℝ) 2 0 ≤ -1 := by simp [negPoleMat]
  ⟨⟨h1, h2⟩, glm_euler_angles_poles posPoleMat negPoleMat h1 h2⟩

end Poles

/-! ## Exact recovery -/

section Exact

open Real

end Exact

/-! ## The round trip under binary32 rounding of `sinf` -/

section Binary32

open Real

end Binary32




end Cglm
